import Mathlib

/-!
Pluggable widgets tools: asset path rewriting and external-library patterns.

A shallow embedding of the pure logic in
`packages/pluggable-widgets-tools/configs/rollup.config.mjs`.

JavaScript strings are embedded as Lean strings and every string primitive is
defined on the underlying character list (`String.data`), whose characters
stand for the code units of the JavaScript string: the operations embedded
here only compare and copy them one by one.
-/

namespace WidgetsTools

/-! ## JavaScript string primitives used by the configuration -/

/-- The method `s.startsWith(searchString)`: the search string is a prefix of `s`. -/
def startsWith (s searchString : String) : Bool :=
  searchString.data.isPrefixOf s.data

/-- The call `s.replace(/c/g, r)` for a one-character pattern `c` and a one-character
replacement `r`: every occurrence of `c` becomes `r`, all else is kept. -/
def replaceAllChar (s : String) (c r : Char) : String :=
  ⟨s.data.map fun d => if d = c then r else d⟩

/-- The backslash character. -/
def backslash : Char := Char.ofNat 92

/-! ## `rollup.config.mjs` -/

/-- The constant `const assetsDirName = "assets";`. -/
def assetsDirName : String := "assets"

/-- The expression `outWidgetDir.replace(/\\/g, "/")`, the first interpolation of the template
literal in `cssUrlTransform`. -/
def normalisedDir (outWidgetDir : String) : String :=
  replaceAllChar outWidgetDir backslash '/'

/-- The callback handed to postcss-url:
`asset => asset.url.startsWith(assetsDirName + "/")
   ? outWidgetDir.replace(/\\/g, "/") + "/" + asset.url : asset.url`.
The module-level constant `outWidgetDir` is the first argument, `asset.url`
the second. -/
def cssUrlTransform (outWidgetDir url : String) : String :=
  if startsWith url (assetsDirName ++ "/") then
    normalisedDir outWidgetDir ++ "/" ++ url
  else
    url

/-! ### Dynamic typing of the callback argument -/

/-- The JavaScript values the `url` field of the callback argument may hold. -/
inductive JSValue where
  | undefined
  | null
  | bool (b : Bool)
  | number (n : Int)
  | str (s : String)
  deriving DecidableEq

/-- The outcome of evaluating the callback: a returned value or a thrown error. -/
inductive Completion where
  | normal (v : JSValue)
  | throw (error : String)
  deriving DecidableEq

/-- The callback `cssUrlTransform` applied to an asset whose `url` field holds
an arbitrary JavaScript value. Reading `startsWith` off `undefined` or `null`
throws, and so does calling the missing `startsWith` of a boolean or a number;
on a string the two branches of the conditional return a string. -/
def cssUrlTransformDyn (outWidgetDir : String) : JSValue → Completion
  | .str url => .normal (.str (cssUrlTransform outWidgetDir url))
  | .undefined => .throw "TypeError: Cannot read properties of undefined"
  | .null => .throw "TypeError: Cannot read properties of null"
  | .bool _ => .throw "TypeError: asset.url.startsWith is not a function"
  | .number _ => .throw "TypeError: asset.url.startsWith is not a function"

/-! ### `node:path` (POSIX flavour), imported by the configuration

`join` comes from Node.js, not from this repository. It is embedded after
`posix.join`, `posix.normalize` and `normalizeString` of Node's `lib/path.js`,
working on the list of code units of the path. -/

/-- The loop state of `normalizeString`. The field `seg` holds
`path.slice(lastSlash + 1, i)`, the characters read since the last separator,
in place of the index `lastSlash`. -/
structure NormState where
  res : List Char
  lastSegmentLength : Nat
  seg : List Char
  dots : Int
  deriving DecidableEq

/-- The method `res.lastIndexOf(c)`: the index of the last occurrence, `none` for `-1`. -/
def lastIndexOf (c : Char) : List Char → Option Nat
  | [] => none
  | d :: t =>
    match lastIndexOf c t with
    | some i => some (i + 1)
    | none => if d = c then some 0 else none

/-- The state with which every pass through a separator ends:
`lastSlash = i; dots = 0`. -/
def NormState.closed (res : List Char) (lastSegmentLength : Nat) : NormState :=
  { res := res, lastSegmentLength := lastSegmentLength, seg := [], dots := 0 }

/-- The branch `if (allowAboveRoot)` of `normalizeString`: a `..` segment that
cannot be resolved is kept when the path is relative. -/
def NormState.aboveRoot (allowAboveRoot : Bool) (st : NormState) : NormState :=
  if allowAboveRoot then
    NormState.closed (if st.res.length > 0 then st.res ++ "/..".data else "..".data) 2
  else
    NormState.closed st.res st.lastSegmentLength

/-- The body of the loop of `normalizeString` when the current code unit is a
path separator (or the virtual separator after the last character). -/
def NormState.endSegment (allowAboveRoot : Bool) (st : NormState) : NormState :=
  if st.seg = [] ∨ st.dots = 1 then
    NormState.closed st.res st.lastSegmentLength
  else if st.dots = 2 then
    if st.res.length < 2 ∨ st.lastSegmentLength ≠ 2 ∨
        st.res.getLast? ≠ some '.' ∨ st.res.dropLast.getLast? ≠ some '.' then
      if st.res.length > 2 then
        match lastIndexOf '/' st.res with
        | none => NormState.closed [] 0
        | some k =>
          let r := st.res.take k
          NormState.closed r
            (match lastIndexOf '/' r with
             | none => r.length
             | some j => r.length - 1 - j)
      else if st.res.length ≠ 0 then
        NormState.closed [] 0
      else
        st.aboveRoot allowAboveRoot
    else
      st.aboveRoot allowAboveRoot
  else
    NormState.closed
      (if st.res.length > 0 then st.res ++ '/' :: st.seg else st.seg)
      st.seg.length

/-- One iteration of the loop of `normalizeString` on the code unit `c`. -/
def NormState.step (allowAboveRoot : Bool) (st : NormState) (c : Char) : NormState :=
  if c = '/' then
    st.endSegment allowAboveRoot
  else if c = '.' ∧ st.dots ≠ -1 then
    { st with seg := st.seg ++ [c], dots := st.dots + 1 }
  else
    { st with seg := st.seg ++ [c], dots := -1 }

/-- The function `normalizeString(path, allowAboveRoot, "/", isPosixPathSeparator)`: the loop
runs over every code unit and, unless the last one is a separator, once more
on a virtual separator. -/
def normalizeString (path : List Char) (allowAboveRoot : Bool) : List Char :=
  let st := path.foldl (NormState.step allowAboveRoot)
    { res := [], lastSegmentLength := 0, seg := [], dots := 0 }
  let st := if path.getLast? = some '/' then st else st.endSegment allowAboveRoot
  st.res

/-- The function `posix.normalize(path)`. -/
def normalize (path : String) : String :=
  if path.data.length = 0 then "."
  else
    let isAbsolute := path.data.head? = some '/'
    let trailingSeparator := path.data.getLast? = some '/'
    let p := normalizeString path.data (!isAbsolute)
    if p.length = 0 then
      if isAbsolute then "/" else if trailingSeparator then "./" else "."
    else
      let p := if trailingSeparator then p ++ ['/'] else p
      if isAbsolute then ⟨'/' :: p⟩ else ⟨p⟩

/-- The function `posix.join(...args)`: the non-empty arguments are concatenated with `/`
between them and the result is normalised; with nothing to join it is `"."`. -/
def join (args : List String) : String :=
  let joined : Option String := args.foldl
    (fun joined arg =>
      if arg.data.length > 0 then
        match joined with
        | none => some arg
        | some j => some (j ++ "/" ++ arg)
      else joined)
    none
  match joined with
  | none => "."
  | some j => normalize j

/-- The method `s.toLowerCase()` on ASCII strings: `A`..`Z` are mapped to `a`..`z`. The
embedding is exact for code units below 128 only. -/
def toLowerCase (s : String) : String :=
  ⟨s.data.map Char.toLower⟩

/-- The constant `const outWidgetDir = join(widgetPackage.replace(/\./g, "/"), widgetName.toLowerCase());` -/
def outWidgetDir (widgetPackage widgetName : String) : String :=
  join [replaceAllChar widgetPackage '.' '/', toLowerCase widgetName]

/-! ### Regular expressions of `commonExternalLibs` -/

/-- The fragment of ECMAScript pattern syntax that the external-library
patterns use: literal characters, the assertions `^` and `$` (no `m` flag),
sequencing, and the disjunction `a|b`. -/
inductive Regex where
  | char (c : Char)
  | bol
  | eol
  | empty
  | seq (a b : Regex)
  | alt (a b : Regex)
  deriving DecidableEq

/-- The end positions of all matches of a pattern that begin at position `i`
of the input. -/
def Regex.matchAt (input : List Char) : Regex → Nat → List Nat
  | .char c, i => if input.get? i = some c then [i + 1] else []
  | .bol, i => if i = 0 then [i] else []
  | .eol, i => if i = input.length then [i] else []
  | .empty, i => [i]
  | .seq a b, i => (Regex.matchAt input a i).flatMap fun j => Regex.matchAt input b j
  | .alt a b, i => Regex.matchAt input a i ++ Regex.matchAt input b i

/-- The call `new RegExp(value).test(id)` for a pattern without flags: a match is tried
at every start position from 0 to the length of the input. -/
def Regex.test (r : Regex) (id : String) : Bool :=
  (List.range (id.data.length + 1)).any fun i => !(r.matchAt id.data i).isEmpty

/-- A run of literal pattern characters. -/
def Regex.lit : List Char → Regex
  | [] => .empty
  | c :: cs => .seq (.char c) (Regex.lit cs)

/-- The constant `const commonExternalLibs = [/^mendix($|\/)/, /^react$/, /^react\/jsx-runtime$/, /^react-dom$/];` -/
def commonExternalLibs : List Regex :=
  [ .seq .bol (.seq (Regex.lit "mendix".data) (.alt .eol (.char '/'))),
    .seq .bol (.seq (Regex.lit "react".data) .eol),
    .seq .bol (.seq (Regex.lit "react/jsx-runtime".data) .eol),
    .seq .bol (.seq (Regex.lit "react-dom".data) .eol) ]

/-- The `ignore` option given to the commonjs plugin in `getCommonPlugins`:
`id => (config.external || []).some(value => new RegExp(value).test(id))`. -/
def ignore (external : List Regex) (id : String) : Bool :=
  external.any fun value => value.test id

/-! ## `native/common.ts`

A JavaScript object is embedded as the list of its own enumerable properties
in insertion order, with values in a type `V` that the merging code never
inspects. As in an object literal, a later entry for a key overrides an earlier
one; objects as the code meets them have one entry per key. The numeric-first
ordering of `Object.keys` is not modelled: nothing below depends on the order
of the keys. -/

/-- A JavaScript object with property values in `V`. -/
abbrev Obj (V : Type) := List (String × V)

/-- The property read `o[k]`: `none` stands for `undefined`, the value of a
missing property. -/
def Obj.get {V : Type} : Obj V → String → Option V
  | [], _ => none
  | e :: t, k =>
    match Obj.get t k with
    | some v => some v
    | none => if e.1 = k then some e.2 else none

/-- Definition of the property `k` with value `v` on a copy of `o`: an existing
property keeps its place and takes the new value, a new one goes last. -/
def Obj.set {V : Type} (o : Obj V) (k : String) (v : V) : Obj V :=
  if o.any (fun e => e.1 = k) then
    o.map fun e => if e.1 = k then (k, v) else e
  else
    o ++ [(k, v)]

/-- The function `Object.keys(o)`. -/
def Obj.keys {V : Type} (o : Obj V) : List String :=
  o.map Prod.fst

/-- The object literal `{ ...a, ...b }`: the properties of `b` are defined one
after the other on a copy of `a`. -/
def Obj.spread {V : Type} (a b : Obj V) : Obj V :=
  b.foldl (fun acc e => acc.set e.1 e.2) a

/-- The object literal `{ ...a, ...b }` where `b` may be `undefined`, which
spreads no property. -/
def Obj.spreadOpt {V : Type} (a : Obj V) : Option (Obj V) → Obj V
  | none => Obj.spread [] a
  | some b => Obj.spread (Obj.spread [] a) b

/-- The interface `Style`: an object whose properties are style objects. -/
abbrev Style (V : Type) := Obj (Obj V)

/-- The function `flattenObjects`:
`objects.reduce((merged, object) => ({ ...merged, ...object }), {})`. The items
come from `object[currentKey]` and may be `undefined`. -/
def flattenObjects {V : Type} (objects : List (Option (Obj V))) : Obj V :=
  objects.foldl (fun merged object => merged.spreadOpt object) []

/-- The function `mergeNativeStyles`:
`styles = [defaultStyle, ...overrideStyles.filter(object => object !== undefined)]`
and `Object.keys(defaultStyle).reduce((flattened, currentKey) =>
  ({ ...flattened, [currentKey]: flattenObjects(styles.map(object => object[currentKey])) }), {})`. -/
def mergeNativeStyles {V : Type} (defaultStyle : Style V)
    (overrideStyles : List (Option (Style V))) : Style V :=
  let styles := defaultStyle :: overrideStyles.filterMap id
  (Obj.keys defaultStyle).foldl
    (fun flattened currentKey =>
      let styleItems := styles.map fun object => object.get currentKey
      (Obj.spread [] flattened).set currentKey (flattenObjects styleItems))
    []

/-! ### Invariants used in the proofs about `normalizeString` -/

/-- The counter `dots` is either switched off (`-1`) or counts a segment read
so far that consists of dots only. -/
def DotsOK (st : NormState) : Prop :=
  st.dots = -1 ∨ (st.dots = st.seg.length ∧ ∀ c ∈ st.seg, c = '.')

/-- A path segment that `normalizeString` copies as it stands: not empty, free
of separators, and neither `.` nor `..`. -/
def PlainSeg (g : List Char) : Prop :=
  g ≠ [] ∧ '/' ∉ g ∧ g ≠ ['.'] ∧ g ≠ ['.', '.']

/-- The result string extended by one more segment:
`res.length > 0 ? res + "/" + seg : seg`. -/
def pushSeg (res seg : List Char) : List Char :=
  if res.length > 0 then res ++ '/' :: seg else seg

/-! ## Properties of the asset path rewriter -/

theorem startsWith_iff (s p : String) : startsWith s p = true ↔ p.data <+: s.data := by
  simp [startsWith]

theorem cssUrlTransform_matching (N s : String) (h : "assets/".data <+: s.data) :
    cssUrlTransform N s = normalisedDir N ++ "/" ++ s := by
  have : startsWith s (assetsDirName ++ "/") = true := (startsWith_iff _ _).2 h
  simp [cssUrlTransform, this]

theorem cssUrlTransform_nonmatching (N s : String) (h : ¬ "assets/".data <+: s.data) :
    cssUrlTransform N s = s := by
  have : ¬ startsWith s (assetsDirName ++ "/") = true := fun h' => h ((startsWith_iff _ _).1 h')
  simp [cssUrlTransform, this]

theorem normalisedDir_data (N : String) :
    (normalisedDir N).data = N.data.map fun d => if d = backslash then '/' else d := rfl

theorem backslash_not_mem_normalisedDir (N : String) : backslash ∉ (normalisedDir N).data := by
  rw [normalisedDir_data]
  intro h
  obtain ⟨d, -, hd⟩ := List.mem_map.1 h
  by_cases hb : d = backslash
  · rw [if_pos hb] at hd
    exact absurd hd (by decide)
  · rw [if_neg hb] at hd
    exact hb hd

theorem normalisedDir_of_not_mem (N : String) (h : backslash ∉ N.data) : normalisedDir N = N := by
  apply String.ext
  rw [normalisedDir_data]
  conv_rhs => rw [← List.map_id N.data]
  apply List.map_congr_left
  intro d hd
  have : d ≠ backslash := fun e => h (e ▸ hd)
  simp [this]

/-- A prefix of `assets/` that ends in a slash is the whole of `assets/`. -/
theorem prefix_assets_slash (X : List Char) (h : X ++ ['/'] <+: "assets/".data) :
    X ++ ['/'] = "assets/".data := by
  have hlen := h.length_le
  have htake := List.prefix_iff_eq_take.1 h
  simp only [List.length_append, List.length_singleton] at hlen htake
  have h7 : "assets/".data.length = 7 := by decide
  rw [h7] at hlen
  have hX : X.length ≤ 6 := by omega
  have hlast : (X ++ ['/']).getLast? = some '/' := by simp
  rw [htake] at hlast ⊢
  generalize X.length = n at hX hlast
  interval_cases n
  · exact absurd hlast (by decide)
  · exact absurd hlast (by decide)
  · exact absurd hlast (by decide)
  · exact absurd hlast (by decide)
  · exact absurd hlast (by decide)
  · exact absurd hlast (by decide)
  · decide

/-- When the normalised directory followed by a slash does not begin with
`assets/`, no rewritten reference begins with `assets/`. -/
theorem not_prefix_rewritten (N s : String)
    (hN : ¬ "assets/".data <+: (normalisedDir N ++ "/").data) :
    ¬ "assets/".data <+: (normalisedDir N ++ "/" ++ s).data := by
  intro h
  have h1 : (normalisedDir N ++ "/").data <+: (normalisedDir N ++ "/" ++ s).data := by
    simp only [String.data_append]
    exact List.prefix_append _ _
  rcases List.prefix_or_prefix_of_prefix h h1 with h2 | h2
  · exact hN h2
  · have h3 : (normalisedDir N ++ "/").data = (normalisedDir N).data ++ ['/'] := by
      simp [String.data_append]
    rw [h3] at h2
    have h4 := prefix_assets_slash _ h2
    apply hN
    rw [h3, h4]

/-- C1: for every asset URL `s` that starts with `assets/` and every nested
package path `N` without a backslash, `cssUrlTransform` returns `N + "/" + s`. -/
theorem cssUrlTransform_prefixed (N s : String) (hs : "assets/".data <+: s.data)
    (hN : backslash ∉ N.data) : cssUrlTransform N s = N ++ "/" ++ s := by
  rw [cssUrlTransform_matching N s hs, normalisedDir_of_not_mem N hN]

/-- C1 at the input of the specification: `assets/icon.png` under
`com/example/widgets/mywidget`. -/
theorem cssUrlTransform_prefixed_witness :
    cssUrlTransform "com/example/widgets/mywidget" "assets/icon.png"
      = "com/example/widgets/mywidget/assets/icon.png" :=
  cssUrlTransform_prefixed "com/example/widgets/mywidget" "assets/icon.png"
    (by decide) (by decide)

/-- C2: every string that does not start with `assets/` is returned unchanged,
whatever the nested package path. -/
theorem cssUrlTransform_passthrough (N s : String) (hs : ¬ "assets/".data <+: s.data) :
    cssUrlTransform N s = s :=
  cssUrlTransform_nonmatching N s hs

/-- C2 on a bare file name, a data URI and an absolute URL. -/
theorem cssUrlTransform_passthrough_witness :
    cssUrlTransform "com/example/widgets/mywidget" "icon.png" = "icon.png"
    ∧ cssUrlTransform "com/example/widgets/mywidget" "data:image/png;base64,AAAA"
        = "data:image/png;base64,AAAA"
    ∧ cssUrlTransform "com/example/widgets/mywidget" "https://example.com/assets/a.png"
        = "https://example.com/assets/a.png" :=
  ⟨cssUrlTransform_passthrough _ "icon.png" (by decide),
   cssUrlTransform_passthrough _ "data:image/png;base64,AAAA" (by decide),
   cssUrlTransform_passthrough _ "https://example.com/assets/a.png" (by decide)⟩

/-- C3 fails as stated: under the nested package path `assets` the reference
`assets/icon.png` is rewritten again when fed back. -/
theorem cssUrlTransform_idempotent_counterexample :
    cssUrlTransform "assets" (cssUrlTransform "assets" "assets/icon.png")
      ≠ cssUrlTransform "assets" "assets/icon.png" := by
  decide

/-- C3 as amended: when the normalised nested package path followed by `/` does
not start with `assets/`, applying `cssUrlTransform` to its own result gives the
same string, for every asset URL. -/
theorem cssUrlTransform_idempotent (N s : String)
    (hN : ¬ "assets/".data <+: (normalisedDir N ++ "/").data) :
    cssUrlTransform N (cssUrlTransform N s) = cssUrlTransform N s := by
  by_cases hs : "assets/".data <+: s.data
  · rw [cssUrlTransform_matching N s hs]
    exact cssUrlTransform_nonmatching N _ (not_prefix_rewritten N s hN)
  · rw [cssUrlTransform_nonmatching N s hs, cssUrlTransform_nonmatching N s hs]

/-- C3 as amended, at `com/example/widgets/mywidget` and `assets/icon.png`. -/
theorem cssUrlTransform_idempotent_witness :
    cssUrlTransform "com/example/widgets/mywidget"
        (cssUrlTransform "com/example/widgets/mywidget" "assets/icon.png")
      = cssUrlTransform "com/example/widgets/mywidget" "assets/icon.png" :=
  cssUrlTransform_idempotent "com/example/widgets/mywidget" "assets/icon.png" (by decide)

/-- C4: rewriting is not idempotent in general: some asset URL and nested
package path exist for which the second application changes the string. -/
theorem cssUrlTransform_not_idempotent :
    ∃ N s : String, cssUrlTransform N (cssUrlTransform N s) ≠ cssUrlTransform N s :=
  ⟨"assets/widget", "assets/font.woff2", by decide⟩


/-- C5 fails as stated: a backslash inside the asset URL itself reaches the
output, since only the nested package path is normalised. -/
theorem cssUrlTransform_backslash_counterexample :
    "assets/".data <+: "assets/img\\icon.png".data
    ∧ backslash ∈ (cssUrlTransform "com\\example\\mywidget" "assets/img\\icon.png").data := by
  decide

/-- C5 as amended: for every nested package path, with or without backslashes,
and every asset URL that starts with `assets/` and itself holds no backslash,
the result of `cssUrlTransform` holds no backslash. -/
theorem cssUrlTransform_no_backslash (N s : String) (hs : "assets/".data <+: s.data)
    (hb : backslash ∉ s.data) : backslash ∉ (cssUrlTransform N s).data := by
  rw [cssUrlTransform_matching N s hs]
  simp only [String.data_append, List.mem_append, not_or]
  exact ⟨⟨backslash_not_mem_normalisedDir N, by decide⟩, hb⟩

/-- C5 as amended, on a Windows-style nested package path. -/
theorem cssUrlTransform_no_backslash_witness :
    backslash ∈ "com\\example\\mywidget".data
    ∧ backslash ∉ (cssUrlTransform "com\\example\\mywidget" "assets/icon.png").data :=
  ⟨by decide,
   cssUrlTransform_no_backslash "com\\example\\mywidget" "assets/icon.png"
     (by decide) (by decide)⟩

/-- C6: a string made of the folder name `assets` followed by anything that
does not begin with `/` (nothing at all included) is returned unchanged. -/
theorem cssUrlTransform_bare_folder (N t : String) (ht : t.data.head? ≠ some '/') :
    cssUrlTransform N (assetsDirName ++ t) = assetsDirName ++ t := by
  apply cssUrlTransform_nonmatching
  intro h
  have h1 : "assets/".data = assetsDirName.data ++ ['/'] := by decide
  rw [h1, String.data_append, List.prefix_append_right_inj] at h
  obtain ⟨r, hr⟩ := h
  apply ht
  rw [← hr]
  rfl

/-- C6 on the bare folder name and on `assetsX/a.png`. -/
theorem cssUrlTransform_bare_folder_witness :
    cssUrlTransform "com/example/widgets/mywidget" "assets" = "assets"
    ∧ cssUrlTransform "com/example/widgets/mywidget" "assetsX/a.png" = "assetsX/a.png" :=
  ⟨cssUrlTransform_bare_folder "com/example/widgets/mywidget" "" (by decide),
   cssUrlTransform_bare_folder "com/example/widgets/mywidget" "X/a.png" (by decide)⟩

/-- C7: on every string the callback completes normally with a string, which
is one of the two branch results, and the empty URL gives the empty string. -/
theorem cssUrlTransform_total (N s : String) :
    (∃ r : String, cssUrlTransformDyn N (.str s) = .normal (.str r)
        ∧ (r = normalisedDir N ++ "/" ++ s ∨ r = s))
    ∧ cssUrlTransformDyn N (.str "") = .normal (.str "") := by
  refine ⟨⟨cssUrlTransform N s, rfl, ?_⟩, ?_⟩
  · by_cases hs : "assets/".data <+: s.data
    · exact Or.inl (cssUrlTransform_matching N s hs)
    · exact Or.inr (cssUrlTransform_nonmatching N s hs)
  · show Completion.normal (.str (cssUrlTransform N "")) = _
    rw [cssUrlTransform_nonmatching N "" (by decide)]

/-- C8: the result always ends with the asset URL as a verbatim suffix, and
`assets/sub/dir/font.woff2` under `a/b` gives `a/b/assets/sub/dir/font.woff2`. -/
theorem cssUrlTransform_suffix :
    (∀ N s : String, ∃ p : String, cssUrlTransform N s = p ++ s)
    ∧ cssUrlTransform "a/b" "assets/sub/dir/font.woff2" = "a/b/assets/sub/dir/font.woff2"
    ∧ cssUrlTransform "a/b" "assets//x/../../y.png" = "a/b/assets//x/../../y.png" := by
  refine ⟨fun N s => ?_, by decide, by decide⟩
  by_cases hs : "assets/".data <+: s.data
  · exact ⟨normalisedDir N ++ "/", cssUrlTransform_matching N s hs⟩
  · exact ⟨"", by rw [cssUrlTransform_nonmatching N s hs]; apply String.ext; simp⟩

/-! ## Properties of the external-library patterns -/

theorem cons_prefix_drop (input cs : List Char) (c : Char) (i : Nat) (hi : i < input.length) :
    c :: cs <+: input.drop i ↔ c = input[i] ∧ cs <+: input.drop (i + 1) := by
  rw [List.drop_eq_getElem_cons hi, List.cons_prefix_cons]

theorem getElem?_append_cons (cs t : List Char) (d : Char) :
    (cs ++ d :: t)[cs.length]? = some d := by
  rw [List.getElem?_append_right (Nat.le_refl _)]
  simp

/-- A literal run matches at `i` exactly when it is a prefix of the input from
`i` on, and then ends right after it. -/
theorem matchAt_lit (input cs : List Char) (i : Nat) :
    Regex.matchAt input (Regex.lit cs) i
      = if cs <+: input.drop i then [i + cs.length] else [] := by
  induction cs generalizing i with
  | nil => simp [Regex.lit, Regex.matchAt]
  | cons c cs ih =>
    simp only [Regex.lit, Regex.matchAt, List.get?_eq_getElem?]
    by_cases hi : i < input.length
    · rw [List.getElem?_eq_getElem hi]
      simp only [cons_prefix_drop input cs c i hi, Option.some.injEq]
      by_cases hc : input[i] = c
      · subst hc
        simp [ih, Nat.add_assoc, Nat.add_comm 1]
      · have hc2 : ¬ (c = input[i]) := fun e => hc e.symm
        simp [hc, hc2]
    · have hi2 : input.length ≤ i := Nat.le_of_not_lt hi
      simp [List.getElem?_eq_none hi2, List.drop_eq_nil_of_le hi2]

/-- A pattern that begins with `^` can only match from position 0. -/
theorem test_anchored (r : Regex) (id : String) :
    (Regex.seq .bol r).test id = !(r.matchAt id.data 0).isEmpty := by
  rw [Bool.eq_iff_iff]
  simp only [Regex.test, List.any_eq_true, List.mem_range, Regex.matchAt]
  constructor
  · rintro ⟨i, -, hi⟩
    by_cases h0 : i = 0
    · subst h0
      simpa using hi
    · simp [h0] at hi
  · intro h
    exact ⟨0, Nat.succ_pos _, by simpa using h⟩

/-- The pattern `^cs$` matches the string `cs` only. -/
theorem test_exact (cs : List Char) (id : String) :
    (Regex.seq .bol (.seq (Regex.lit cs) .eol)).test id = true ↔ id.data = cs := by
  rw [test_anchored]
  simp only [Regex.matchAt, matchAt_lit, List.drop_zero, Nat.zero_add]
  by_cases h : cs <+: id.data
  · simp only [if_pos h, List.flatMap_cons, List.flatMap_nil, List.append_nil]
    by_cases hl : cs.length = id.data.length
    · simp [hl, (h.eq_of_length hl).symm]
    · have hne : id.data ≠ cs := fun e => hl (by rw [e])
      have hl2 : ¬ cs.length = id.length := hl
      simp [hl2, hne]
  · have : id.data ≠ cs := fun e => h (by rw [e])
    simp [h, this]

/-- The pattern `^cs($|\/)` matches `cs` and every string that begins with
`cs/`. -/
theorem test_exact_or_slash (cs : List Char) (id : String) :
    (Regex.seq .bol (.seq (Regex.lit cs) (.alt .eol (.char '/')))).test id = true
      ↔ id.data = cs ∨ cs ++ ['/'] <+: id.data := by
  rw [test_anchored]
  simp only [Regex.matchAt, matchAt_lit, List.drop_zero, Nat.zero_add]
  by_cases h : cs <+: id.data
  · obtain ⟨t, ht⟩ := h
    rw [← ht]
    simp only [List.prefix_append, if_true, List.flatMap_cons, List.flatMap_nil,
      List.append_nil, List.get?_eq_getElem?]
    cases t with
    | nil => simp
    | cons d t =>
      rw [getElem?_append_cons]
      by_cases hd : d = '/'
      · subst hd
        simp [List.prefix_append_right_inj, List.cons_prefix_cons]
      · have hd2 : ¬ ('/' = d) := fun e => hd e.symm
        simp [hd, hd2, List.prefix_append_right_inj, List.cons_prefix_cons]
  · have h1 : id.data ≠ cs := fun e => h (by rw [e])
    have h2 : ¬ cs ++ ['/'] <+: id.data := fun e => h ((List.prefix_append cs ['/']).trans e)
    simp [h, h1, h2]

/-- C10: some pattern of `commonExternalLibs` matches a module id exactly when
the id is `react`, `react/jsx-runtime`, `react-dom`, `mendix`, or begins with
`mendix/`; in particular `react-domx`, `mendixfoo` and `preact` are not
matched. -/
theorem commonExternalLibs_matches :
    (∀ id : String, ignore commonExternalLibs id = true
      ↔ id = "react" ∨ id = "react/jsx-runtime" ∨ id = "react-dom" ∨ id = "mendix"
        ∨ "mendix/".data <+: id.data)
    ∧ ignore commonExternalLibs "react-domx" = false
    ∧ ignore commonExternalLibs "mendixfoo" = false
    ∧ ignore commonExternalLibs "preact" = false := by
  refine ⟨fun id => ?_, by decide, by decide, by decide⟩
  have hext : ∀ lit : String, id.data = lit.data ↔ id = lit :=
    fun lit => ⟨fun h => String.ext h, fun h => by rw [h]⟩
  have hm : "mendix".data ++ ['/'] = "mendix/".data := by decide
  simp only [ignore, commonExternalLibs, List.any_cons, List.any_nil, Bool.or_false,
    Bool.or_eq_true, test_exact, test_exact_or_slash, hext, hm]
  tauto

/-! ## Properties of `outWidgetDir` -/

theorem data_intercalate_go (acc sep : String) (l : List String) :
    (String.intercalate.go acc sep l).data
      = acc.data ++ l.flatMap fun a => sep.data ++ a.data := by
  induction l generalizing acc with
  | nil => simp [String.intercalate.go]
  | cons a l ih => simp [String.intercalate.go, ih, String.data_append]

theorem data_intercalate_cons (sep a : String) (l : List String) :
    (sep.intercalate (a :: l)).data = a.data ++ l.flatMap fun x => sep.data ++ x.data := by
  simp [String.intercalate, data_intercalate_go]

/-- Lower-casing never produces a character below `A` out of another one. -/
theorem toLower_eq_nonletter (c d : Char) (hd : d.toNat < 65) (h : c.toLower = d) : c = d := by
  unfold Char.toLower at h
  by_cases hc : c.toNat ≥ 65 ∧ c.toNat ≤ 90
  · simp only [hc, and_self, if_true] at h
    exfalso
    obtain ⟨h1, h2⟩ := hc
    generalize c.toNat = n at h h1 h2
    subst h
    interval_cases n <;> revert hd <;> decide
  · simpa [hc] using h

/-- Reading the characters of a separator-free run only extends `seg` and
updates `dots`, keeping the invariant on `dots`. -/
theorem foldl_step_segment (a : Bool) (g : List Char) (hg : '/' ∉ g) (st : NormState)
    (hst : DotsOK st) :
    ∃ d : Int, g.foldl (NormState.step a) st = { st with seg := st.seg ++ g, dots := d }
      ∧ DotsOK { st with seg := st.seg ++ g, dots := d } := by
  induction g generalizing st with
  | nil =>
    refine ⟨st.dots, ?_, ?_⟩
    · simp
    · simpa using hst
  | cons c g ih =>
    have hc : c ≠ '/' := fun e => hg (e ▸ List.mem_cons_self _ _)
    have hg2 : '/' ∉ g := fun e => hg (List.mem_cons_of_mem _ e)
    have hok : DotsOK (NormState.step a st c) := by
      unfold NormState.step
      rw [if_neg hc]
      by_cases h : c = '.' ∧ st.dots ≠ -1
      · rw [if_pos h]
        rcases hst with h1 | ⟨h1, h2⟩
        · exact absurd h1 h.2
        · right
          refine ⟨by simp [h1], ?_⟩
          intro x hx
          rcases List.mem_append.1 hx with hx | hx
          · exact h2 x hx
          · rw [List.mem_singleton.1 hx]
            exact h.1
      · rw [if_neg h]
        exact Or.inl rfl
    obtain ⟨d, hd1, hd2⟩ := ih hg2 (NormState.step a st c) hok
    have hseg : (NormState.step a st c).seg = st.seg ++ [c] := by
      unfold NormState.step
      rw [if_neg hc]
      split <;> rfl
    have hres : (NormState.step a st c).res = st.res := by
      unfold NormState.step
      rw [if_neg hc]
      split <;> rfl
    have hlen : (NormState.step a st c).lastSegmentLength = st.lastSegmentLength := by
      unfold NormState.step
      rw [if_neg hc]
      split <;> rfl
    have heq : ({ NormState.step a st c with seg := (NormState.step a st c).seg ++ g, dots := d }
        : NormState) = { st with seg := st.seg ++ c :: g, dots := d } := by
      simp [hseg, hres, hlen]
    rw [heq] at hd1 hd2
    exact ⟨d, by rw [List.foldl_cons, hd1], hd2⟩

/-- A plain segment read from a closed state and followed by a separator is
appended to the result. -/
theorem endSegment_plain (a : Bool) (g : List Char) (hg : PlainSeg g) (res : List Char)
    (l : Nat) :
    (g.foldl (NormState.step a) (NormState.closed res l)).endSegment a
      = NormState.closed (pushSeg res g) g.length := by
  obtain ⟨hne, hslash, h1, h2⟩ := hg
  obtain ⟨d, hd1, hd2⟩ := foldl_step_segment a g hslash (NormState.closed res l)
    (Or.inr ⟨rfl, by simp [NormState.closed]⟩)
  rw [hd1]
  simp only [NormState.closed, List.nil_append] at hd2 ⊢
  have hd_ne1 : d ≠ 1 := by
    intro e
    rcases hd2 with h | ⟨h, hall⟩
    · simp only at h; omega
    · simp only at h hall
      apply h1
      have hl : g.length = 1 := by omega
      match g, hl, hall with
      | [x], _, hall => rw [hall x (List.mem_singleton_self x)]
  have hd_ne2 : d ≠ 2 := by
    intro e
    rcases hd2 with h | ⟨h, hall⟩
    · simp only at h; omega
    · simp only at h hall
      apply h2
      have hl : g.length = 2 := by omega
      match g, hl, hall with
      | [x, y], _, hall =>
        rw [hall x (by simp), hall y (by simp)]
  simp [NormState.endSegment, hne, hd_ne1, hd_ne2, pushSeg, NormState.closed]

theorem pushSeg_pushSeg (res g rest : List Char) (hg : g ≠ []) :
    pushSeg (pushSeg res g) rest = pushSeg res (g ++ '/' :: rest) := by
  have hpos : 0 < g.length := List.length_pos.2 hg
  unfold pushSeg
  by_cases hres : res.length > 0
  · have h2 : (res ++ '/' :: g).length > 0 := by simp
    simp only [if_pos hres, if_pos h2, List.append_assoc, List.cons_append]
  · simp only [if_neg hres, if_pos hpos]

/-- A path of plain segments separated by single slashes is rebuilt segment by
segment on top of the result so far. -/
theorem endSegment_segments (a : Bool) (rest : List (List Char))
    (hrest : ∀ x ∈ rest, PlainSeg x) (g : List Char) (hg : PlainSeg g) (res : List Char)
    (l : Nat) :
    (((g ++ rest.flatMap fun x => '/' :: x).foldl (NormState.step a)
        (NormState.closed res l)).endSegment a).res
      = pushSeg res (g ++ rest.flatMap fun x => '/' :: x) := by
  induction rest generalizing g res l with
  | nil =>
    simp only [List.flatMap_nil, List.append_nil]
    rw [endSegment_plain a g hg]
    rfl
  | cons g2 rest ih =>
    have hg2 : PlainSeg g2 := hrest g2 (List.mem_cons_self _ _)
    have hrest2 : ∀ x ∈ rest, PlainSeg x := fun x hx => hrest x (List.mem_cons_of_mem _ hx)
    have hstep : ∀ st : NormState, NormState.step a st '/' = st.endSegment a := by
      intro st
      simp [NormState.step]
    simp only [List.flatMap_cons, List.cons_append, List.foldl_append, List.foldl_cons]
    rw [hstep, endSegment_plain a g hg, ← List.foldl_append,
      ih hrest2 g2 hg2 (pushSeg res g) g.length, pushSeg_pushSeg res g _ hg.1]

theorem getLast?_segments (rest : List (List Char)) (hrest : ∀ x ∈ rest, PlainSeg x)
    (g : List Char) (hg : PlainSeg g) :
    (g ++ rest.flatMap fun x => '/' :: x).getLast? ≠ some '/' := by
  induction rest generalizing g with
  | nil =>
    simp only [List.flatMap_nil, List.append_nil]
    intro h
    exact hg.2.1 (List.mem_of_getLast?_eq_some h)
  | cons g2 rest ih =>
    have hg2 : PlainSeg g2 := hrest g2 (List.mem_cons_self _ _)
    have hrest2 : ∀ x ∈ rest, PlainSeg x := fun x hx => hrest x (List.mem_cons_of_mem _ hx)
    have hne : (g2 ++ rest.flatMap fun x => '/' :: x) ≠ [] := by
      intro e
      exact hg2.1 (List.append_eq_nil.1 e).1
    have hsplit : (g ++ (g2 :: rest).flatMap fun x => '/' :: x)
        = (g ++ ['/']) ++ (g2 ++ rest.flatMap fun x => '/' :: x) := by
      simp
    rw [hsplit, List.getLast?_append_of_ne_nil _ hne]
    exact ih hrest2 g2 hg2

/-- The function `normalizeString` leaves a relative path of plain segments as it is. -/
theorem normalizeString_segments (rest : List (List Char)) (hrest : ∀ x ∈ rest, PlainSeg x)
    (g : List Char) (hg : PlainSeg g) :
    normalizeString (g ++ rest.flatMap fun x => '/' :: x) true
      = g ++ rest.flatMap fun x => '/' :: x := by
  unfold normalizeString
  simp only [if_neg (getLast?_segments rest hrest g hg)]
  have h := endSegment_segments true rest hrest g hg [] 0
  simp only [NormState.closed, pushSeg, List.length_nil, gt_iff_lt, Nat.lt_irrefl,
    if_false] at h
  exact h

/-- The function `posix.normalize` leaves a relative path of plain segments as it is. -/
theorem normalize_segments (j : String) (rest : List (List Char))
    (hrest : ∀ x ∈ rest, PlainSeg x) (g : List Char) (hg : PlainSeg g)
    (hj : j.data = g ++ rest.flatMap fun x => '/' :: x) : normalize j = j := by
  have hlen : 0 < g.length := List.length_pos.2 hg.1
  have hjlen : j.data.length ≠ 0 := by
    rw [hj, List.length_append]
    omega
  have hhead : ¬ j.data.head? = some '/' := by
    rw [hj]
    intro h
    match g, hg, h with
    | c :: t, hg, h =>
      simp only [List.cons_append, List.head?_cons, Option.some.injEq] at h
      exact hg.2.1 (h ▸ List.mem_cons_self _ _)
  have hlast : ¬ j.data.getLast? = some '/' := by
    rw [hj]
    exact getLast?_segments rest hrest g hg
  have hnorm : normalizeString j.data true = j.data := by
    rw [hj]
    exact normalizeString_segments rest hrest g hg
  unfold normalize
  simp only [if_neg hjlen, hhead, hlast, decide_False, Bool.not_false, hnorm, if_false]

theorem map_replace_of_not_mem (l : List Char) (h : '.' ∉ l) :
    l.map (fun d => if d = '.' then '/' else d) = l := by
  conv_rhs => rw [← List.map_id l]
  apply List.map_congr_left
  intro d hd
  have : d ≠ '.' := fun e => h (e ▸ hd)
  simp [this]

theorem map_replace_segments (rest : List String) (hrest : ∀ g ∈ rest, '.' ∉ g.data) :
    (rest.flatMap fun x => ".".data ++ x.data).map (fun d => if d = '.' then '/' else d)
      = rest.flatMap fun x => '/' :: x.data := by
  induction rest with
  | nil => rfl
  | cons g rest ih =>
    have hg : '.' ∉ g.data := hrest g (List.mem_cons_self _ _)
    have hrest2 : ∀ x ∈ rest, '.' ∉ x.data := fun x hx => hrest x (List.mem_cons_of_mem _ hx)
    simp only [List.flatMap_cons, List.map_append, ih hrest2, map_replace_of_not_mem g.data hg]
    rfl

/-- Replacing the dots of a dotted identifier whose segments hold no dot gives
the segments joined by slashes. -/
theorem replaceAllChar_intercalate (g : String) (rest : List String)
    (hsegs : ∀ x ∈ g :: rest, '.' ∉ x.data) :
    replaceAllChar (".".intercalate (g :: rest)) '.' '/' = "/".intercalate (g :: rest) := by
  apply String.ext
  have hg : '.' ∉ g.data := hsegs g (List.mem_cons_self _ _)
  have hrest : ∀ x ∈ rest, '.' ∉ x.data := fun x hx => hsegs x (List.mem_cons_of_mem _ hx)
  show (".".intercalate (g :: rest)).data.map (fun d => if d = '.' then '/' else d) = _
  rw [data_intercalate_cons, data_intercalate_cons, List.map_append,
    map_replace_of_not_mem g.data hg, map_replace_segments rest hrest]
  rfl

/-- The lower-cased widget name is a plain segment when the name is not empty,
holds no slash and is neither `.` nor `..`. -/
theorem plainSeg_toLowerCase (name : String) (hname : name ≠ "") (hslash : '/' ∉ name.data)
    (hdot : name ≠ ".") (hdotdot : name ≠ "..") : PlainSeg (toLowerCase name).data := by
  show PlainSeg (name.data.map Char.toLower)
  refine ⟨?_, ?_, ?_, ?_⟩
  · intro e
    exact hname (String.ext (List.map_eq_nil_iff.1 e))
  · intro h
    obtain ⟨c, hc, hc2⟩ := List.mem_map.1 h
    exact hslash (toLower_eq_nonletter c '/' (by decide) hc2 ▸ hc)
  · intro e
    apply hdot
    apply String.ext
    cases hn : name.data with
    | nil => simp [hn] at e
    | cons c t =>
      cases t with
      | cons d t => simp [hn] at e
      | nil =>
        simp only [hn, List.map_cons, List.map_nil, List.cons.injEq, and_true] at e
        rw [toLower_eq_nonletter c '.' (by decide) e]
  · intro e
    apply hdotdot
    apply String.ext
    cases hn : name.data with
    | nil => simp [hn] at e
    | cons c t =>
      cases t with
      | nil => simp [hn] at e
      | cons d t =>
        cases t with
        | cons x t => simp [hn] at e
        | nil =>
          simp only [hn, List.map_cons, List.map_nil, List.cons.injEq, and_true] at e
          rw [toLower_eq_nonletter c '.' (by decide) e.1,
            toLower_eq_nonletter d '.' (by decide) e.2]

/-- A non-empty segment without a dot or a slash is a plain segment. -/
theorem plainSeg_of_no_dot (g : String) (hne : g ≠ "") (hdot : '.' ∉ g.data)
    (hslash : '/' ∉ g.data) : PlainSeg g.data := by
  refine ⟨fun e => hne (String.ext e), hslash, ?_, ?_⟩
  · intro e
    exact hdot (e ▸ List.mem_cons_self _ _)
  · intro e
    exact hdot (e ▸ List.mem_cons_self _ _)

/-- The function `join` on two non-empty arguments normalises them with a slash between. -/
theorem join_pair (a b : String) (ha : a ≠ "") (hb : b ≠ "") :
    join [a, b] = normalize (a ++ "/" ++ b) := by
  have ha2 : a.data.length > 0 := List.length_pos.2 fun e => ha (String.ext e)
  have hb2 : b.data.length > 0 := List.length_pos.2 fun e => hb (String.ext e)
  simp only [join, List.foldl_cons, List.foldl_nil, if_pos ha2, if_pos hb2]

/-- C9 fails as stated: the widget name `..` is non-empty, ASCII and free of
path separators, yet `join` resolves it against the last package segment. -/
theorem outWidgetDir_counterexample :
    (∀ g ∈ ["com", "mendix"], g ≠ "" ∧ '.' ∉ g.data ∧ '/' ∉ g.data ∧ backslash ∉ g.data)
    ∧ ".." ≠ "" ∧ '/' ∉ "..".data ∧ backslash ∉ "..".data
    ∧ (∀ c ∈ "..".data, c.toNat < 128)
    ∧ outWidgetDir (".".intercalate ["com", "mendix"]) ".." = "com"
    ∧ outWidgetDir (".".intercalate ["com", "mendix"]) ".."
        ≠ "/".intercalate ["com", "mendix"] ++ "/" ++ toLowerCase ".." := by
  decide

/-- C9 as amended: for a package identifier made of non-empty dot-separated
segments without a slash and a non-empty ASCII widget name without a slash
that is neither `.` nor `..`, `outWidgetDir` is the segments joined by `/`,
then `/`, then the lower-cased widget name. -/
theorem outWidgetDir_eq (segs : List String) (name : String) (hne : segs ≠ [])
    (hsegs : ∀ g ∈ segs, g ≠ "" ∧ '.' ∉ g.data ∧ '/' ∉ g.data)
    (hname : name ≠ "") (hslash : '/' ∉ name.data)
    (_hascii : ∀ c ∈ name.data, c.toNat < 128)
    (hdot : name ≠ ".") (hdotdot : name ≠ "..") :
    outWidgetDir (".".intercalate segs) name
      = "/".intercalate segs ++ "/" ++ toLowerCase name := by
  match segs, hne, hsegs with
  | g :: rest, _, hsegs =>
    have hg := hsegs g (List.mem_cons_self _ _)
    have hw : PlainSeg (toLowerCase name).data :=
      plainSeg_toLowerCase name hname hslash hdot hdotdot
    have hrepl := replaceAllChar_intercalate g rest fun x hx => (hsegs x hx).2.1
    have hA : "/".intercalate (g :: rest) ≠ "" := by
      intro e
      have e2 := congrArg String.data e
      rw [data_intercalate_cons] at e2
      exact hg.1 (String.ext (List.append_eq_nil.1 e2).1)
    have hB : toLowerCase name ≠ "" := fun e => hw.1 (by rw [e])
    unfold outWidgetDir
    rw [hrepl, join_pair _ _ hA hB]
    apply normalize_segments _ (rest.map String.data ++ [(toLowerCase name).data])
      _ g.data (plainSeg_of_no_dot g hg.1 hg.2.1 hg.2.2)
    · simp only [String.data_append, data_intercalate_cons, List.flatMap_append,
        List.flatMap_map, List.flatMap_cons, List.flatMap_nil, List.append_nil,
        List.append_assoc]
      rfl
    · intro x hx
      rcases List.mem_append.1 hx with hx | hx
      · obtain ⟨y, hy, rfl⟩ := List.mem_map.1 hx
        have := hsegs y (List.mem_cons_of_mem _ hy)
        exact plainSeg_of_no_dot y this.1 this.2.1 this.2.2
      · rw [List.mem_singleton.1 hx]
        exact hw

/-- C9 as amended, at package `com.mendix.widget.web` and widget `Accordion`,
with the rewriting of `assets/icon.png` that follows from it. -/
theorem outWidgetDir_eq_witness :
    outWidgetDir (".".intercalate ["com", "mendix", "widget", "web"]) "Accordion"
      = "/".intercalate ["com", "mendix", "widget", "web"] ++ "/" ++ toLowerCase "Accordion"
    ∧ ".".intercalate ["com", "mendix", "widget", "web"] = "com.mendix.widget.web"
    ∧ "/".intercalate ["com", "mendix", "widget", "web"] ++ "/" ++ toLowerCase "Accordion"
        = "com/mendix/widget/web/accordion"
    ∧ cssUrlTransform (outWidgetDir "com.mendix.widget.web" "Accordion") "assets/icon.png"
        = "com/mendix/widget/web/accordion/assets/icon.png" :=
  ⟨outWidgetDir_eq ["com", "mendix", "widget", "web"] "Accordion" (by decide) (by decide)
     (by decide) (by decide) (by decide) (by decide) (by decide),
   by decide, by decide, by decide⟩

/-! ## Exact characterisation of idempotence -/

/-- A string followed by a slash begins with `assets/` exactly when it is
`assets` or itself begins with `assets/`. -/
theorem assets_prefix_append_slash (X : List Char) :
    "assets/".data <+: X ++ ['/'] ↔ X = "assets".data ∨ "assets/".data <+: X := by
  constructor
  · rintro ⟨t, ht⟩
    rcases List.eq_nil_or_concat t with rfl | ⟨L, b, rfl⟩
    · left
      have h1 : "assets".data ++ ['/'] = X ++ ['/'] := by
        rw [← ht]
        decide
      exact (List.append_inj' h1 rfl).1.symm
    · right
      rw [List.concat_eq_append, ← List.append_assoc] at ht
      exact ⟨L, (List.append_inj' ht rfl).1⟩
  · rintro (rfl | h)
    · exact ⟨[], by decide⟩
    · exact h.trans (List.prefix_append X ['/'])

theorem normalisedDir_slash_data (N : String) :
    (normalisedDir N ++ "/").data = (normalisedDir N).data ++ ['/'] := by
  simp [String.data_append]

/-- When the normalised directory followed by a slash begins with `assets/`,
so does every rewritten reference. -/
theorem prefix_rewritten (N s : String)
    (hN : "assets/".data <+: (normalisedDir N ++ "/").data) :
    "assets/".data <+: (normalisedDir N ++ "/" ++ s).data := by
  have h1 : (normalisedDir N ++ "/" ++ s).data = (normalisedDir N ++ "/").data ++ s.data := by
    simp [String.data_append]
  rw [h1]
  exact hN.trans (List.prefix_append _ _)

/-- Under such a directory every iterate of a matching reference matches, and
each further application puts one more copy of the directory in front. -/
theorem iterate_rewritten (N s : String)
    (hN : "assets/".data <+: (normalisedDir N ++ "/").data)
    (hs : "assets/".data <+: s.data) (n : Nat) :
    "assets/".data <+: ((cssUrlTransform N)^[n] s).data
    ∧ (cssUrlTransform N)^[n + 1] s = normalisedDir N ++ "/" ++ (cssUrlTransform N)^[n] s := by
  induction n with
  | zero =>
    exact ⟨hs, by
      rw [Function.iterate_succ_apply', Function.iterate_zero_apply,
        cssUrlTransform_matching N s hs]⟩
  | succ n ih =>
    have h1 : "assets/".data <+: ((cssUrlTransform N)^[n + 1] s).data := by
      rw [ih.2]
      exact prefix_rewritten N _ hN
    refine ⟨h1, ?_⟩
    rw [Function.iterate_succ_apply' (cssUrlTransform N) (n + 1),
      cssUrlTransform_matching N _ h1]

/-- C11: `cssUrlTransform` is idempotent on all asset URLs exactly when the
normalised nested package path followed by `/` does not start with `assets/`,
that is when the normalised path is neither `assets` nor begins with
`assets/`; when it does, every asset URL starting with `assets/` gains one more
copy of the directory prefix on each further application. -/
theorem cssUrlTransform_idempotent_iff (N : String) :
    ((∀ s : String, cssUrlTransform N (cssUrlTransform N s) = cssUrlTransform N s)
      ↔ ¬ "assets/".data <+: (normalisedDir N ++ "/").data)
    ∧ ("assets/".data <+: (normalisedDir N ++ "/").data
      ↔ normalisedDir N = "assets" ∨ "assets/".data <+: (normalisedDir N).data)
    ∧ ("assets/".data <+: (normalisedDir N ++ "/").data →
        ∀ s : String, "assets/".data <+: s.data → ∀ n : Nat,
          (cssUrlTransform N)^[n + 1] s
            = normalisedDir N ++ "/" ++ (cssUrlTransform N)^[n] s
          ∧ (cssUrlTransform N)^[n + 1] s ≠ (cssUrlTransform N)^[n] s) := by
  refine ⟨⟨?_, ?_⟩, ?_, ?_⟩
  · intro hall hN
    have h0 : "assets/".data <+: "assets/".data := List.prefix_refl _
    have h1 := hall "assets/"
    rw [cssUrlTransform_matching N "assets/" h0,
      cssUrlTransform_matching N _ (prefix_rewritten N "assets/" hN)] at h1
    have h2 := congrArg String.length h1
    simp only [String.length_append] at h2
    have h3 : ("/" : String).length = 1 := by decide
    omega
  · intro hN s
    by_cases hs : "assets/".data <+: s.data
    · rw [cssUrlTransform_matching N s hs]
      exact cssUrlTransform_nonmatching N _ (not_prefix_rewritten N s hN)
    · rw [cssUrlTransform_nonmatching N s hs, cssUrlTransform_nonmatching N s hs]
  · rw [normalisedDir_slash_data, assets_prefix_append_slash]
    constructor
    · rintro (h | h)
      · exact Or.inl (String.ext h)
      · exact Or.inr h
    · rintro (h | h)
      · exact Or.inl (by rw [h])
      · exact Or.inr h
  · intro hN s hs n
    have h := iterate_rewritten N s hN hs n
    refine ⟨h.2, ?_⟩
    rw [h.2]
    intro e
    have h2 := congrArg String.length e
    simp only [String.length_append] at h2
    have h3 : ("/" : String).length = 1 := by decide
    omega

/-- C11 under the nested package path `assets`, on `assets/icon.png`: idempotence
fails and two applications give `assets/assets/assets/icon.png`. -/
theorem cssUrlTransform_idempotent_iff_witness :
    "assets/".data <+: (normalisedDir "assets" ++ "/").data
    ∧ ¬ (∀ s : String,
        cssUrlTransform "assets" (cssUrlTransform "assets" s) = cssUrlTransform "assets" s)
    ∧ (cssUrlTransform "assets")^[2] "assets/icon.png"
        = normalisedDir "assets" ++ "/" ++ (cssUrlTransform "assets")^[1] "assets/icon.png"
    ∧ (cssUrlTransform "assets")^[2] "assets/icon.png" = "assets/assets/assets/icon.png" :=
  ⟨by decide,
   fun h => ((cssUrlTransform_idempotent_iff "assets").1.1 h) (by decide),
   ((cssUrlTransform_idempotent_iff "assets").2.2 (by decide) "assets/icon.png"
      (by decide) 1).1,
   by decide⟩

/-! ## Properties of `mergeNativeStyles` -/

theorem Obj.get_cons {V : Type} (e : String × V) (t : Obj V) (k : String) :
    Obj.get (e :: t) k = (Obj.get t k).or (if e.1 = k then some e.2 else none) := by
  show (match Obj.get t k with
    | some v => some v
    | none => if e.1 = k then some e.2 else none) = _
  cases Obj.get t k <;> rfl

theorem Obj.get_append {V : Type} (a b : Obj V) (k : String) :
    Obj.get (a ++ b) k = (Obj.get b k).or (Obj.get a k) := by
  induction a with
  | nil => simp [Obj.get, Option.or_none]
  | cons e a ih => rw [List.cons_append, Obj.get_cons, ih, Obj.get_cons, Option.or_assoc]

/-- A key is listed by `Object.keys` exactly when reading it gives a value. -/
theorem Obj.mem_keys_iff {V : Type} (o : Obj V) (k : String) :
    k ∈ Obj.keys o ↔ (Obj.get o k).isSome = true := by
  induction o with
  | nil => simp [Obj.keys, Obj.get]
  | cons e o ih =>
    have ih2 : k ∈ List.map Prod.fst o ↔ (Obj.get o k).isSome = true := ih
    rw [Obj.get_cons]
    simp only [Obj.keys, List.map_cons, List.mem_cons, ih2]
    by_cases he : e.1 = k
    · cases Obj.get o k <;> simp [he]
    · have he2 : ¬ k = e.1 := fun h => he h.symm
      cases Obj.get o k <;> simp [he, he2]

theorem Obj.any_iff {V : Type} (o : Obj V) (k : String) :
    o.any (fun e => e.1 = k) = true ↔ (Obj.get o k).isSome = true := by
  rw [← Obj.mem_keys_iff]
  simp [Obj.keys]

theorem Obj.get_map_set {V : Type} (o : Obj V) (k k2 : String) (v : V) :
    Obj.get (o.map fun e => if e.1 = k then (k, v) else e) k2
      = if k2 = k then (Obj.get o k).map (fun _ => v) else Obj.get o k2 := by
  induction o with
  | nil => simp [Obj.get]
  | cons e o ih =>
    rw [List.map_cons, Obj.get_cons, ih, Obj.get_cons, Obj.get_cons]
    by_cases hk : k2 = k
    · subst hk
      by_cases he : e.1 = k2
      · cases Obj.get o k2 <;> simp [he]
      · cases Obj.get o k2 <;> simp [he]
    · have hk3 : ¬ k = k2 := fun h => hk h.symm
      by_cases he : e.1 = k
      · have he2 : ¬ e.1 = k2 := fun h => hk (h.symm.trans he)
        simp [hk, hk3, he, he2]
      · simp [hk, he]

/-- Reading after a definition: the defined key has the new value and every
other key is as before. -/
theorem Obj.get_set {V : Type} (o : Obj V) (k k2 : String) (v : V) :
    Obj.get (o.set k v) k2 = if k2 = k then some v else Obj.get o k2 := by
  unfold Obj.set
  by_cases h : o.any (fun e => e.1 = k) = true
  · rw [if_pos h, Obj.get_map_set]
    have h2 := (Obj.any_iff o k).1 h
    by_cases hk : k2 = k
    · rw [if_pos hk, if_pos hk]
      cases hg : Obj.get o k with
      | none => simp [hg] at h2
      | some w => rfl
    · rw [if_neg hk, if_neg hk]
  · rw [if_neg h, Obj.get_append]
    have h2 : Obj.get o k = none := by
      cases hg : Obj.get o k with
      | none => rfl
      | some w => exact absurd ((Obj.any_iff o k).2 (by simp [hg])) h
    by_cases hk : k2 = k
    · subst hk
      simp [Obj.get]
    · have hk3 : ¬ k = k2 := fun e => hk e.symm
      simp [Obj.get, hk, hk3]

/-- Reading from `{ ...a, ...b }`: the value in `b` when `b` defines the key,
else the value in `a`. -/
theorem Obj.get_spread {V : Type} (a b : Obj V) (k : String) :
    Obj.get (Obj.spread a b) k = (Obj.get b k).or (Obj.get a k) := by
  unfold Obj.spread
  induction b generalizing a with
  | nil => simp [Obj.get]
  | cons e b ih =>
    rw [List.foldl_cons, ih, Obj.get_set, Obj.get_cons, Option.or_assoc]
    by_cases he : e.1 = k
    · subst he
      simp
    · have he2 : ¬ k = e.1 := fun h => he h.symm
      simp [he, he2]

theorem Obj.get_spread_nil {V : Type} (a : Obj V) (k : String) :
    Obj.get (Obj.spread [] a) k = Obj.get a k := by
  rw [Obj.get_spread]
  simp [Obj.get, Option.or_none]

theorem Obj.get_spreadOpt {V : Type} (a : Obj V) (b : Option (Obj V)) (k : String) :
    Obj.get (Obj.spreadOpt a b) k = (b.bind fun o => Obj.get o k).or (Obj.get a k) := by
  cases b with
  | none => simp [Obj.spreadOpt, Obj.get_spread_nil]
  | some o =>
    show Obj.get (Obj.spread (Obj.spread [] a) o) k = _
    rw [Obj.get_spread, Obj.get_spread_nil]
    rfl

theorem getLast?_cons_or {α : Type} (a : α) (l : List α) :
    (a :: l).getLast? = l.getLast?.or (some a) := by
  rw [List.getLast?_cons]
  cases l.getLast? <;> rfl

/-- A property of the merge of a list of objects holds the value from the last
object in the list that defines it. -/
theorem get_foldl_spreadOpt {V : Type} (objects : List (Option (Obj V))) (acc : Obj V)
    (p : String) :
    Obj.get (objects.foldl (fun merged object => merged.spreadOpt object) acc) p
      = ((objects.filterMap fun o => o.bind fun item => Obj.get item p).getLast?).or
          (Obj.get acc p) := by
  induction objects generalizing acc with
  | nil => simp
  | cons o objects ih =>
    rw [List.foldl_cons, ih, Obj.get_spreadOpt]
    cases ho : (o.bind fun item => Obj.get item p) with
    | none => simp [List.filterMap_cons, ho]
    | some w =>
      rw [List.filterMap_cons]
      simp only [ho]
      rw [getLast?_cons_or, Option.or_assoc]

theorem get_flattenObjects {V : Type} (objects : List (Option (Obj V))) (p : String) :
    Obj.get (flattenObjects objects) p
      = (objects.filterMap fun o => o.bind fun item => Obj.get item p).getLast? := by
  unfold flattenObjects
  rw [get_foldl_spreadOpt]
  simp [Obj.get, Option.or_none]

/-- The reduction over the keys defines each listed key once and for all. -/
theorem get_foldl_keys {V : Type} (F : String → Obj V) (ks : List String) (acc : Style V)
    (k : String) :
    Obj.get (ks.foldl (fun flattened currentKey =>
        (Obj.spread [] flattened).set currentKey (F currentKey)) acc) k
      = if k ∈ ks then some (F k) else Obj.get acc k := by
  induction ks generalizing acc with
  | nil => simp
  | cons j ks ih =>
    rw [List.foldl_cons, ih, Obj.get_set, Obj.get_spread_nil]
    by_cases h1 : k ∈ ks
    · simp [h1]
    · by_cases h2 : k = j
      · simp [h2]
      · simp [h1, h2]

theorem get_mergeNativeStyles {V : Type} (d : Style V) (os : List (Option (Style V)))
    (k : String) :
    Obj.get (mergeNativeStyles d os) k
      = if k ∈ Obj.keys d then
          some (flattenObjects ((d :: os.filterMap id).map fun object => Obj.get object k))
        else none := by
  unfold mergeNativeStyles
  simp only []
  rw [get_foldl_keys (fun currentKey =>
    flattenObjects ((d :: os.filterMap id).map fun object => Obj.get object currentKey))]
  simp [Obj.get]

/-- C12: for every key `k` of the default style, the result at `k` is the merge,
from left to right, of `d[k]` and of `o[k]` for each override `o` that is not
`undefined`; each property `p` of it holds the value from the last style of
that sequence that defines `p` under `k`, and with no override at all it has
the properties of `d[k]`. -/
theorem mergeNativeStyles_precedence {V : Type} (d : Style V) (os : List (Option (Style V)))
    (k : String) (hk : k ∈ Obj.keys d) :
    Obj.get (mergeNativeStyles d os) k
        = some (flattenObjects ((d :: os.filterMap id).map fun o => Obj.get o k))
    ∧ (∀ p : String,
        (Obj.get (mergeNativeStyles d os) k).bind (fun r => Obj.get r p)
          = ((d :: os.filterMap id).filterMap fun o =>
              (Obj.get o k).bind fun item => Obj.get item p).getLast?)
    ∧ (∀ p : String,
        (Obj.get (mergeNativeStyles d []) k).bind (fun r => Obj.get r p)
          = (Obj.get d k).bind fun item => Obj.get item p) := by
  refine ⟨?_, ?_, ?_⟩
  · rw [get_mergeNativeStyles, if_pos hk]
  · intro p
    rw [get_mergeNativeStyles, if_pos hk, Option.some_bind, get_flattenObjects,
      List.filterMap_map]
    rfl
  · intro p
    rw [get_mergeNativeStyles, if_pos hk, Option.some_bind, get_flattenObjects]
    cases h : (Obj.get d k).bind (fun item => Obj.get item p) <;>
      simp [List.filterMap_cons, h]

/-- C12 on a default style with two overrides around an `undefined` entry: the
later override wins on `color`, the default keeps `size`, and the override that
lacks the key `container` changes nothing. -/
theorem mergeNativeStyles_precedence_witness :
    Obj.get (mergeNativeStyles
        [("container", [("color", "red"), ("size", "1")]), ("label", [("font", "a")])]
        [some [("container", [("color", "green")])], none,
         some [("container", [("color", "blue")]), ("extra", [("x", "y")])],
         some [("label", [("font", "b")])]]) "container"
      = some [("color", "blue"), ("size", "1")] :=
  ((mergeNativeStyles_precedence
      [("container", [("color", "red"), ("size", "1")]), ("label", [("font", "a")])]
      [some [("container", [("color", "green")])], none,
       some [("container", [("color", "blue")]), ("extra", [("x", "y")])],
       some [("label", [("font", "b")])]] "container" (by decide)).1).trans (by decide)

/-- C13: the result of `mergeNativeStyles` has exactly the keys of the default
style, whatever the overrides; a key that only an override has reads as
`undefined` in the result, as `extra` does in the example. -/
theorem mergeNativeStyles_keys {V : Type} (d : Style V) (os : List (Option (Style V))) :
    (∀ k : String, k ∈ Obj.keys (mergeNativeStyles d os) ↔ k ∈ Obj.keys d)
    ∧ (∀ k : String, Obj.get (mergeNativeStyles d os) k = none ↔ k ∉ Obj.keys d)
    ∧ Obj.keys (mergeNativeStyles
        [("container", [("color", "red")]), ("label", [("font", "a")])]
        [some [("container", [("color", "blue")]), ("extra", [("x", "y")])]])
      = ["container", "label"] := by
  refine ⟨fun k => ?_, fun k => ?_, by decide⟩
  · rw [Obj.mem_keys_iff, get_mergeNativeStyles]
    by_cases h : k ∈ Obj.keys d
    · simp [h]
    · simp [h]
  · rw [get_mergeNativeStyles]
    by_cases h : k ∈ Obj.keys d
    · simp [h]
    · simp [h]

end WidgetsTools
